import Mathlib

/-!
A shallow embedding of the datumlib tagged-container library
(src/datumlib/_containers.py, src/datumlib/_collection_utils.py,
src/datumlib/containers.py, src/datumlib/_pipe.py), with theorems about
its collection algebra and pipeline executor.

Python tag dictionaries are modelled as association lists from string keys
to string values read through first-match lookup; Python None is modelled
by Option.none; operations that can raise are modelled with Option or
Except return types.
-/

namespace Datumlib

/-- Tag mappings (Python dict with string keys and, in this model, string
values), as association lists with first-match lookup. -/
abbrev Tags := List (String × String)

/-- Python tags.get(key): value of the first binding of the key, if any. -/
def tagsGet (ts : Tags) (k : String) : Option String :=
  ts.lookup k

/-- Insertion step for sorting a list of dict items by (key, value), as
Python tuple(sorted(c.tags.items())) does in the merge consistency check. -/
def insTag (x : String × String) : Tags → Tags
  | [] => [x]
  | y :: ys =>
    if x.1 < y.1 ∨ (x.1 = y.1 ∧ x.2 ≤ y.2) then x :: y :: ys else y :: insTag x ys

/-- Sorted items of a tag mapping; two Python dicts are equal exactly when
their sorted item lists are equal. -/
def sortTags (ts : Tags) : Tags :=
  ts.foldr insTag []

/-- Datum (src/datumlib/_containers.py lines 10-43): a payload with tag
metadata. -/
structure Datum (α : Type) where
  data : α
  tags : Tags
deriving DecidableEq

/-- DatumCollection (src/datumlib/_containers.py lines 46-88): ordered
slots, each either empty (Python None) or a Datum, plus collection-level
tags. -/
structure DatumCollection (α : Type) where
  entries : List (Option (Datum α))
  tags : Tags
deriving DecidableEq

/-- The valid_entries property: the non-None entries, in order. -/
def DatumCollection.valid_entries {α : Type} (c : DatumCollection α) :
    List (Datum α) :=
  c.entries.filterMap id

/-- partition (src/datumlib/_collection_utils.py lines 38-89): slot-position
preserving split by a predicate. Python unpacks zip(* generator), which
raises ValueError when the collection has no entries; that failure is the
none case. -/
def partition {α : Type} (c : DatumCollection α) (p : Datum α → Bool) :
    Option (DatumCollection α × DatumCollection α) :=
  match c.entries with
  | [] => none
  | _ =>
    some
      (⟨c.entries.map (fun s => match s with
          | none => none
          | some d => if p d then some d else none), c.tags⟩,
       ⟨c.entries.map (fun s => match s with
          | none => none
          | some d => if p d then none else some d), c.tags⟩)

/-- Length of the shortest of the lists (0 when there are none); Python
zip(*xss) truncates its output to this length. -/
def minLen {α : Type} (xss : List (List (Option (Datum α)))) : Nat :=
  match xss with
  | [] => 0
  | l :: rest => rest.foldl (fun m t => min m t.length) l.length

/-- Python zip(*xss): the i-th output row collects the i-th element of
every list, for i below the length of the shortest list. -/
def zipEntries {α : Type} (xss : List (List (Option (Datum α)))) :
    List (List (Option (Datum α))) :=
  (List.range (minLen xss)).map (fun i => xss.map (fun l => l.getD i none))

deriving instance DecidableEq for Except

/-- The ways merge can raise: ValueError on overlapping entries, IndexError
from collections[0] when called with no collections. -/
inductive MergeErr : Type where
  | overlap
  | noInput
deriving DecidableEq

/-- The _check_and_pick helper (src/datumlib/_collection_utils.py lines
92-96): at most one non-None entry per aligned row is allowed; more than
one raises ValueError (the overlap error). -/
def check_and_pick {α : Type} (xs : List (Option (Datum α))) :
    Except MergeErr (Option (Datum α)) :=
  let hits := xs.filterMap id
  if 1 < hits.length then .error .overlap else .ok hits.head?

/-- Left-to-right effectful map for Except, as Python evaluates
tuple(f(x) for x in rows): the first raise aborts. -/
def mapExc {ε β γ : Type} (f : β → Except ε γ) : List β → Except ε (List γ)
  | [] => .ok []
  | x :: xs =>
    match f x with
    | .error e => .error e
    | .ok y =>
      match mapExc f xs with
      | .error e => .error e
      | .ok ys => .ok (y :: ys)

/-- merge (src/datumlib/_collection_utils.py lines 99-143). Unequal input
lengths are silently truncated by zip; an overlapping row raises
ValueError; tags of the first collection are used for the result. -/
def merge {α : Type} (cs : List (DatumCollection α)) :
    Except MergeErr (DatumCollection α) :=
  match cs with
  | [] => .error .noInput
  | c0 :: rest =>
    match mapExc check_and_pick
        (zipEntries ((c0 :: rest).map (fun c => c.entries))) with
    | .error e => .error e
    | .ok merged => .ok ⟨merged, c0.tags⟩

/-- The tag-consistency check inside merge: the set of sorted tag item
lists has more than one element, in which case a non-fatal warning is
logged. -/
def mergeWarns {α : Type} (cs : List (DatumCollection α)) : Bool :=
  (cs.map (fun c => sortTags c.tags)).dedup.length != 1

/-- filter_collection (src/datumlib/_collection_utils.py lines 16-20):
keep the valid entries satisfying the predicate; positions collapse. -/
def filter_collection {α : Type} (c : DatumCollection α) (p : Datum α → Bool) :
    DatumCollection α :=
  ⟨(c.valid_entries.filter p).map some, c.tags⟩

/-- get_tags (src/datumlib/_collection_utils.py lines 23-25):
tags.get(key, fill_with) over the valid entries. -/
def get_tags {α : Type} (c : DatumCollection α) (k : String)
    (fill : Option String) : List (Option String) :=
  c.valid_entries.map (fun d => (tagsGet d.tags k).or fill)

/-- group_by_tag (src/datumlib/_collection_utils.py lines 28-35): the
distinct observed values under the key (a missing key is observed as
None), each mapped to the matching filter of the collection. Python
iterates a set in unspecified order; first-occurrence order is used
here. -/
def group_by_tag {α : Type} (c : DatumCollection α) (k : String) :
    List (Option String × DatumCollection α) :=
  (get_tags c k none).dedup.map
    (fun t => (t, filter_collection c (fun d => tagsGet d.tags k == t)))

/-- zip_with (src/datumlib/_collection_utils.py lines 183-186): apply a
function across positionally aligned rows; zip truncates to the shortest
collection. -/
def zip_with {α β : Type} (cs : List (DatumCollection α))
    (f : List (Option (Datum α)) → β) : List β :=
  (zipEntries (cs.map (fun c => c.entries))).map f

/-- The inner _check_tags of compare_tags (src/datumlib/_collection_utils.py
lines 193-194). The short-circuit of Python and keeps a row of at most one
entry from being dereferenced; with two or more aligned entries the set
comprehension reads d.tags on every aligned entry, so a None entry raises
AttributeError (the none case). -/
def check_tags {α : Type} (row : List (Option (Datum α))) (k : String) :
    Option Bool :=
  if row.length ≤ 1 then some false
  else if row.any (fun s => s.isNone) then none
  else
    some (((row.filterMap id).map (fun d => tagsGet d.tags k)).dedup.length == 1)

/-- Left-to-right effectful map for Option, as a Python list comprehension
evaluates: the first raise aborts. -/
def mapOpt {β γ : Type} (f : β → Option γ) : List β → Option (List γ)
  | [] => some []
  | x :: xs =>
    match f x with
    | none => none
    | some y =>
      match mapOpt f xs with
      | none => none
      | some ys => some (y :: ys)

/-- compare_tags (src/datumlib/_collection_utils.py lines 189-201). -/
def compare_tags {α : Type} (cs : List (DatumCollection α))
    (keys : List String) : Option Bool :=
  match mapOpt (fun k =>
      match mapOpt (fun row => check_tags row k)
          (zipEntries (cs.map (fun c => c.entries))) with
      | none => none
      | some checks => some (checks.all id)) keys with
  | none => none
  | some eachKey => some (eachKey.all id)

/-- cmap (src/datumlib/containers.py lines 378-394): lift a Datum
transformation over a collection, skipping None slots and keeping the
collection tags. -/
def cmap {α : Type} (f : Datum α → Datum α) (c : DatumCollection α) :
    DatumCollection α :=
  ⟨c.entries.map (fun s => match s with
      | none => none
      | some d => some (f d)), c.tags⟩

/-- Sort key of a slot in sort_by (src/datumlib/_collection_utils.py lines
176-177): the empty-string sentinel for an empty slot, tags.get(key)
(possibly None) for an occupied one. -/
def slot_key {α : Type} (k : String) (s : Option (Datum α)) : Option String :=
  match s with
  | none => some ""
  | some d => tagsGet d.tags k

/-- Total proxy for the sort key, meaningful when no slot key is None. -/
def keyD {α : Type} (k : String) (s : Option (Datum α)) : String :=
  (slot_key k s).getD ""

/-- Comparison used by the model of Python sorted inside sort_by;
reverse=True is the stable descending order. -/
def sortRel {α : Type} (k : String) :
    Bool → Option (Datum α) → Option (Datum α) → Prop
  | false, a, b => keyD k a ≤ keyD k b
  | true, a, b => keyD k b ≤ keyD k a

instance {α : Type} (k : String) (rev : Bool) :
    DecidableRel (sortRel (α := α) k rev) := by
  cases rev <;> exact fun a b => inferInstanceAs (Decidable (_ ≤ _))

/-- sort_by (src/datumlib/_collection_utils.py lines 151-180). Python
sorted is a stable sort; with two or more slots every slot key takes part
in a comparison, and comparing None with anything raises TypeError, hence
the none case; otherwise sorted is modelled by the stable insertion
sort. -/
def sort_by {α : Type} (c : DatumCollection α) (k : String) (rev : Bool) :
    Option (DatumCollection α) :=
  if 2 ≤ c.entries.length ∧ c.entries.any (fun s => (slot_key k s).isNone) then
    none
  else
    some ⟨c.entries.insertionSort (sortRel k rev), c.tags⟩

/-- Observed tag value of a slot under a key: None for an empty slot,
tags.get(k) of the entry otherwise. -/
def slotTag {α : Type} (s : Option (Datum α)) (k : String) : Option String :=
  match s with
  | none => none
  | some d => tagsGet d.tags k

/-- Observed tag value of a collection at slot i under a key: None when
the slot is empty or past the end, tags.get(k) of the entry otherwise.
Used to state positional tag agreement. -/
def tagAt {α : Type} (c : DatumCollection α) (i : Nat) (k : String) :
    Option String :=
  slotTag (c.entries.getD i none) k

/-- Truncation of a collection to its first n slots; used to state that
zip-based operations silently behave as if every input were cut to the
shortest length. -/
def truncTo {α : Type} (n : Nat) (c : DatumCollection α) : DatumCollection α :=
  ⟨c.entries.take n, c.tags⟩

/-- The container shapes Pipeline.run dispatches on
(src/datumlib/_pipe.py lines 75-100): a DatumCollection, a single Datum,
or a plain value. run never inspects the inside of a collection entry, so
entries are kept abstract here. -/
inductive Container (α : Type) : Type where
  | coll : List (Option α) → Tags → Container α
  | single : α → Tags → Container α
  | plain : α → Container α
deriving DecidableEq

/-- One pipeline step applied to a container (the body of the loop in
Pipeline.run): map over the non-None collection entries, transform a Datum
payload keeping its tags, or apply directly to a plain value. -/
def applyStep {α : Type} (f : α → α) : Container α → Container α
  | .coll entries tags => .coll (entries.map (fun s => s.map f)) tags
  | .single d tags => .single (f d) tags
  | .plain a => .plain (f a)

/-- Python dict indexing assignment trace_dict[name] = x: overwrite the
value in place when the key exists, append otherwise. -/
def dinsert {β : Type} (k : String) (v : β) :
    List (String × β) → List (String × β)
  | [] => [(k, v)]
  | (k1, v1) :: rest =>
    if k1 = k then (k1, v) :: rest else (k1, v1) :: dinsert k v rest

/-- Pipeline.run with trace=False (src/datumlib/_pipe.py lines 51-105):
fold the named steps over the container. -/
def pipeRun {α : Type} (steps : List (String × (α → α))) (x : Container α) :
    Container α :=
  steps.foldl (fun acc step => applyStep step.2 acc) x

/-- Pipeline.run with trace=True: additionally snapshot the post-step
container under the step name after every step. -/
def pipeRunTrace {α : Type} (steps : List (String × (α → α)))
    (x : Container α) : Container α × List (String × Container α) :=
  steps.foldl
    (fun acc step =>
      let x1 := applyStep step.2 acc.1
      (x1, dinsert step.1 x1 acc.2))
    (x, [])

/-! Helper lemmas. -/

theorem range_map_getD {β : Type} (l : List β) (d : β) :
    (List.range l.length).map (fun i => l.getD i d) = l := by
  induction l with
  | nil => rfl
  | cons x xs ih =>
    rw [List.length_cons, List.range_succ_eq_map, List.map_cons, List.map_map]
    simp only [Function.comp_def, List.getD_cons_zero, List.getD_cons_succ]
    exact congrArg (List.cons x) ih

theorem minLen_pair_cons {α : Type} (x y : Option (Datum α))
    (xs ys : List (Option (Datum α))) :
    minLen [x :: xs, y :: ys] = minLen [xs, ys] + 1 := by
  simp [minLen, Nat.succ_min_succ]

theorem zipEntries_pair_cons {α : Type} (x y : Option (Datum α))
    (xs ys : List (Option (Datum α))) :
    zipEntries [x :: xs, y :: ys] = [x, y] :: zipEntries [xs, ys] := by
  rw [zipEntries, zipEntries, minLen_pair_cons, List.range_succ_eq_map,
    List.map_cons, List.map_map]
  simp only [Function.comp_def, List.map_cons, List.map_nil,
    List.getD_cons_zero, List.getD_cons_succ]

theorem mapExc_ok {ε β γ : Type} (f : β → Except ε γ) (g : β → γ)
    (l : List β) (h : ∀ x ∈ l, f x = .ok (g x)) :
    mapExc f l = .ok (l.map g) := by
  induction l with
  | nil => rfl
  | cons x xs ih =>
    have hx := h x (by simp)
    have hxs := ih (fun y hy => h y (by simp [hy]))
    simp [mapExc, hx, hxs]

theorem foldl_min_le_init (ns : List Nat) (a : Nat) : ns.foldl min a ≤ a := by
  induction ns generalizing a with
  | nil => exact le_refl a
  | cons n ns ih =>
    rw [List.foldl_cons]
    exact le_trans (ih (min a n)) (min_le_left a n)

theorem foldl_min_le_mem (ns : List Nat) (a n : Nat) (h : n ∈ ns) :
    ns.foldl min a ≤ n := by
  induction ns generalizing a with
  | nil => simp at h
  | cons m ms ih =>
    rw [List.foldl_cons]
    rcases List.mem_cons.mp h with rfl | hm
    · exact le_trans (foldl_min_le_init ms (min a n)) (min_le_right a n)
    · exact ih (min a m) hm

theorem foldl_min_const (ns : List Nat) (a : Nat) (h : ∀ n ∈ ns, n = a) :
    ns.foldl min a = a := by
  induction ns with
  | nil => rfl
  | cons n ns ih =>
    have hn : n = a := h n (by simp)
    rw [List.foldl_cons, hn, min_self]
    exact ih (fun m hm => h m (by simp [hm]))

theorem minLen_const {α : Type} (xss : List (List (Option (Datum α))))
    (L : Nat) (hne : xss ≠ []) (h : ∀ l ∈ xss, l.length = L) :
    minLen xss = L := by
  cases xss with
  | nil => exact absurd rfl hne
  | cons l rest =>
    rw [minLen,
      ← List.foldl_map (fun t : List (Option (Datum α)) => t.length) min,
      h l (by simp)]
    exact foldl_min_const (rest.map (fun t => t.length)) L
      (fun n hn => by
        rcases List.mem_map.mp hn with ⟨t, ht, rfl⟩
        exact h t (by simp [ht]))

theorem minLen_le {α : Type} (xss : List (List (Option (Datum α))))
    (l : List (Option (Datum α))) (h : l ∈ xss) : minLen xss ≤ l.length := by
  cases xss with
  | nil => simp at h
  | cons t rest =>
    rw [minLen,
      ← List.foldl_map (fun u : List (Option (Datum α)) => u.length) min]
    rcases List.mem_cons.mp h with rfl | hm
    · exact foldl_min_le_init _ _
    · exact foldl_min_le_mem _ _ _ (List.mem_map_of_mem _ hm)

theorem zipEntries_length {α : Type} (xss : List (List (Option (Datum α)))) :
    (zipEntries xss).length = minLen xss := by
  simp [zipEntries]

theorem zipEntries_getElem? {α : Type} (xss : List (List (Option (Datum α))))
    (i : Nat) (h : i < minLen xss) :
    (zipEntries xss)[i]? = some (xss.map (fun l => l.getD i none)) := by
  simp [zipEntries, List.getElem?_map, List.getElem?_range, h]

theorem mem_zipEntries {α : Type} {xss : List (List (Option (Datum α)))}
    {row : List (Option (Datum α))} :
    row ∈ zipEntries xss ↔
      ∃ i, i < minLen xss ∧ row = xss.map (fun l => l.getD i none) := by
  simp only [zipEntries, List.mem_map, List.mem_range]
  constructor
  · rintro ⟨i, hi, rfl⟩; exact ⟨i, hi, rfl⟩
  · rintro ⟨i, hi, rfl⟩; exact ⟨i, hi, rfl⟩

theorem mapExc_length {ε β γ : Type} (f : β → Except ε γ) (l : List β)
    (ys : List γ) (h : mapExc f l = .ok ys) : ys.length = l.length := by
  induction l generalizing ys with
  | nil =>
    rw [mapExc] at h
    cases h
    rfl
  | cons x xs ih =>
    rw [mapExc] at h
    cases hx : f x with
    | error e => rw [hx] at h; cases h
    | ok y =>
      rw [hx] at h
      cases hxs : mapExc f xs with
      | error e => rw [hxs] at h; cases h
      | ok zs =>
        rw [hxs] at h
        cases h
        simp [ih zs hxs]

theorem mapExc_error_mem {ε β γ : Type} (f : β → Except ε γ) (l : List β)
    (e : ε) (h : mapExc f l = .error e) : ∃ x ∈ l, f x = .error e := by
  induction l with
  | nil => rw [mapExc] at h; cases h
  | cons x xs ih =>
    rw [mapExc] at h
    cases hx : f x with
    | error e1 =>
      rw [hx] at h
      cases h
      exact ⟨x, by simp, hx⟩
    | ok y =>
      rw [hx] at h
      cases hxs : mapExc f xs with
      | error e1 =>
        rw [hxs] at h
        cases h
        rcases ih hxs with ⟨z, hz, hfz⟩
        exact ⟨z, by simp [hz], hfz⟩
      | ok zs => rw [hxs] at h; cases h

theorem mapExc_error_of_mem {ε β γ : Type} (f : β → Except ε γ) (l : List β)
    (e0 : ε) (hall : ∀ x ∈ l, f x = .error e0 ∨ ∃ y, f x = .ok y)
    (hex : ∃ x ∈ l, f x = .error e0) : mapExc f l = .error e0 := by
  induction l with
  | nil => rcases hex with ⟨x, hx, _⟩; simp at hx
  | cons x xs ih =>
    rcases hall x (by simp) with hx | ⟨y, hy⟩
    · rw [mapExc, hx]
    · rw [mapExc, hy]
      have hex2 : ∃ z ∈ xs, f z = .error e0 := by
        rcases hex with ⟨z, hz, hfz⟩
        rcases List.mem_cons.mp hz with rfl | hz2
        · rw [hy] at hfz; cases hfz
        · exact ⟨z, hz2, hfz⟩
      rw [ih (fun z hz => hall z (by simp [hz])) hex2]

theorem mapOpt_some_of {β γ : Type} (f : β → Option γ) (l : List β)
    (h : ∀ x ∈ l, ∃ y, f x = some y) : ∃ ys, mapOpt f l = some ys := by
  induction l with
  | nil => exact ⟨[], rfl⟩
  | cons x xs ih =>
    rcases h x (by simp) with ⟨y, hy⟩
    rcases ih (fun z hz => h z (by simp [hz])) with ⟨ys, hys⟩
    exact ⟨y :: ys, by rw [mapOpt, hy, hys]⟩

theorem check_and_pick_ok {α : Type} (row : List (Option (Datum α)))
    (h : (row.filterMap id).length ≤ 1) :
    check_and_pick row = .ok (row.filterMap id).head? := by
  simp only [check_and_pick]
  rw [if_neg (by omega)]

theorem check_and_pick_overflow {α : Type} (row : List (Option (Datum α)))
    (h : 1 < (row.filterMap id).length) :
    check_and_pick row = .error .overlap := by
  simp only [check_and_pick]
  rw [if_pos h]

theorem check_and_pick_error_eq {α : Type} (row : List (Option (Datum α)))
    (e : MergeErr) (h : check_and_pick row = .error e) : e = .overlap := by
  simp only [check_and_pick] at h
  by_cases h1 : 1 < (row.filterMap id).length
  · rw [if_pos h1] at h; cases h; rfl
  · rw [if_neg h1] at h; cases h

theorem dedup_length_eq_one {β : Type} [DecidableEq β] (l : List β)
    (hne : l ≠ []) :
    l.dedup.length = 1 ↔ ∀ a ∈ l, ∀ b ∈ l, a = b := by
  constructor
  · intro h a ha b hb
    rcases List.length_eq_one.mp h with ⟨x, hx⟩
    have ha2 : a ∈ l.dedup := List.mem_dedup.mpr ha
    have hb2 : b ∈ l.dedup := List.mem_dedup.mpr hb
    rw [hx] at ha2 hb2
    simp at ha2 hb2
    rw [ha2, hb2]
  · intro h
    cases hd : l.dedup with
    | nil => exact absurd ((List.dedup_eq_nil l).mp hd) hne
    | cons y ys =>
      cases ys with
      | nil => rfl
      | cons z zs =>
        have hnd := l.nodup_dedup
        rw [hd] at hnd
        have hy : y ∈ l := List.mem_dedup.mp (by simp [hd])
        have hz : z ∈ l := List.mem_dedup.mp (by simp [hd])
        have hyz : y = z := h y hy z hz
        rw [hyz] at hnd
        simp at hnd

/-! Claim C10. -/

/-- C10: partition of the collection with zero entries fails (the
ValueError from unpacking an empty zip), rather than returning a pair of
empty collections; the empty collection is outside the domain of
partition. -/
theorem partition_empty_fails {α : Type} (t : Tags) (p : Datum α → Bool) :
    partition ⟨[], t⟩ p = none := rfl

/-! Claim C1. -/

theorem pick_partition_rows {α : Type} (p : Datum α → Bool)
    (l : List (Option (Datum α))) :
    mapExc check_and_pick
      (zipEntries
        [l.map (fun s => match s with
            | none => none
            | some d => if p d then some d else none),
         l.map (fun s => match s with
            | none => none
            | some d => if p d then none else some d)]) = .ok l := by
  induction l with
  | nil => rfl
  | cons s l ih =>
    rw [List.map_cons, List.map_cons, zipEntries_pair_cons, mapExc]
    have hcp : check_and_pick
        [(match s with
          | none => none
          | some d => if p d then some d else none),
         (match s with
          | none => none
          | some d => if p d then none else some d)] = .ok s := by
      cases s with
      | none => rfl
      | some d => cases hp : p d <;> simp [check_and_pick, hp]
    rw [hcp, ih]

/-- C1: whenever partition produces its two collections from a collection
c, merging the pair returns a collection structurally equal to c: the same
entry (or emptiness) at every slot and the same collection tags. -/
theorem merge_partition {α : Type} (c : DatumCollection α)
    (p : Datum α → Bool) (a b : DatumCollection α)
    (h : partition c p = some (a, b)) :
    merge [a, b] = .ok c := by
  rcases c with ⟨entries, tags⟩
  cases entries with
  | nil => simp [partition] at h
  | cons e es =>
    rw [partition] at h
    simp only [Option.some.injEq, Prod.mk.injEq] at h
    obtain ⟨ha, hb⟩ := h
    subst ha hb
    show (match mapExc check_and_pick
        (zipEntries
          [(e :: es).map (fun s => match s with
              | none => none
              | some d => if p d then some d else none),
           (e :: es).map (fun s => match s with
              | none => none
              | some d => if p d then none else some d)]) with
      | Except.error e1 => (Except.error e1 : Except MergeErr (DatumCollection α))
      | Except.ok merged => Except.ok (⟨merged, tags⟩ : DatumCollection α)) =
      Except.ok (⟨e :: es, tags⟩ : DatumCollection α)
    rw [pick_partition_rows]

/-- Witness for C1 at a concrete collection and predicate. -/
theorem merge_partition_witness :
    merge [(⟨[some ⟨1, [("g", "A")]⟩, none], [("d", "x")]⟩ :
              DatumCollection Nat),
           ⟨[none, none], [("d", "x")]⟩] =
      .ok ⟨[some ⟨1, [("g", "A")]⟩, none], [("d", "x")]⟩ :=
  merge_partition ⟨[some ⟨1, [("g", "A")]⟩, none], [("d", "x")]⟩
    (fun d => tagsGet d.tags "g" == some "A") _ _ (by decide)

/-! Claim C2. -/

theorem zipEntries_take {α : Type} (xss : List (List (Option (Datum α)))) :
    zipEntries (xss.map (List.take (minLen xss))) = zipEntries xss := by
  have hm : minLen (xss.map (List.take (minLen xss))) = minLen xss := by
    cases xss with
    | nil => rfl
    | cons l rest =>
      apply minLen_const _ _ (by simp)
      intro t ht
      rcases List.mem_map.mp ht with ⟨u, hu, rfl⟩
      rw [List.length_take]
      exact min_eq_left (minLen_le _ u hu)
  rw [zipEntries, zipEntries, hm]
  apply List.map_congr_left
  intro i hi
  rw [List.mem_range] at hi
  rw [List.map_map]
  apply List.map_congr_left
  intro l hl
  simp only [Function.comp_apply]
  rw [List.getD_eq_getElem?_getD, List.getD_eq_getElem?_getD,
    List.getElem?_take_of_lt hi]

theorem merge_eq_of_zip {α : Type} (c0 d0 : DatumCollection α)
    (rest1 rest2 : List (DatumCollection α))
    (he : zipEntries ((c0 :: rest1).map (fun c => c.entries)) =
      zipEntries ((d0 :: rest2).map (fun c => c.entries)))
    (ht : c0.tags = d0.tags) : merge (c0 :: rest1) = merge (d0 :: rest2) := by
  simp only [merge, he, ht]

/-- C2 counterexample: with input collections of unequal lengths (2 and
1), merge, zip_with and compare_tags all produce a result, truncated to
the shorter length, instead of raising any shape error. -/
theorem unequal_lengths_no_error :
    merge [(⟨[some ⟨1, []⟩, some ⟨2, []⟩], []⟩ : DatumCollection Nat),
           ⟨[none], []⟩] = .ok ⟨[some ⟨1, []⟩], []⟩ ∧
    zip_with [(⟨[some ⟨1, []⟩, some ⟨2, []⟩], []⟩ : DatumCollection Nat),
           ⟨[none], []⟩] (fun row => row) = [[some ⟨1, []⟩, none]] ∧
    compare_tags [(⟨[some ⟨1, []⟩, some ⟨2, []⟩], []⟩ : DatumCollection Nat),
           ⟨[some ⟨3, []⟩], []⟩] ["k"] = some true := by
  decide

/-- C2 amended: merge, zip_with and compare_tags perform no length
validation at all; on inputs of unequal lengths they behave exactly as if
every input collection were first truncated to the shortest input length
(Python zip semantics), the zip_with output having that length, rather
than raising a shape-mismatch error. -/
theorem unequal_lengths_truncate {α β : Type} (c0 : DatumCollection α)
    (rest : List (DatumCollection α)) (f : List (Option (Datum α)) → β)
    (keys : List String) :
    merge ((c0 :: rest).map
        (truncTo (minLen ((c0 :: rest).map (fun c => c.entries))))) =
      merge (c0 :: rest) ∧
    zip_with ((c0 :: rest).map
        (truncTo (minLen ((c0 :: rest).map (fun c => c.entries))))) f =
      zip_with (c0 :: rest) f ∧
    compare_tags ((c0 :: rest).map
        (truncTo (minLen ((c0 :: rest).map (fun c => c.entries))))) keys =
      compare_tags (c0 :: rest) keys ∧
    (zip_with (c0 :: rest) f).length =
      minLen ((c0 :: rest).map (fun c => c.entries)) := by
  have hents : ((c0 :: rest).map
        (truncTo (minLen ((c0 :: rest).map (fun c => c.entries))))).map
      (fun c => c.entries) =
      ((c0 :: rest).map (fun c => c.entries)).map
        (List.take (minLen ((c0 :: rest).map (fun c => c.entries)))) := by
    rw [List.map_map, List.map_map]
    rfl
  have hz : zipEntries (((c0 :: rest).map
        (truncTo (minLen ((c0 :: rest).map (fun c => c.entries))))).map
      (fun c => c.entries)) =
      zipEntries ((c0 :: rest).map (fun c => c.entries)) := by
    rw [hents]
    exact zipEntries_take _
  refine ⟨?_, ?_, ?_, ?_⟩
  · exact merge_eq_of_zip _ c0 _ rest hz rfl
  · simp only [zip_with]
    rw [hz]
  · simp only [compare_tags]
    rw [hz]
  · simp only [zip_with, List.length_map]
    exact zipEntries_length _

/-! Claim C3. -/

/-- C3: over equal-length input collections, merge raises the overlap
error exactly when some position holds a non-empty entry in more than one
input; when every position holds at most one, merge succeeds, the result
has the first input's tags and the common length, and each output slot
carries the unique aligned entry, or is empty when all inputs are empty
there. -/
theorem merge_overlap_dichotomy {α : Type} (c0 : DatumCollection α)
    (rest : List (DatumCollection α)) (L : Nat)
    (hlen : ∀ c ∈ c0 :: rest, c.entries.length = L) :
    ((∃ i, i < L ∧ 1 < (((c0 :: rest).map
          (fun c => c.entries.getD i none)).filterMap id).length) ∧
      merge (c0 :: rest) = .error .overlap) ∨
    ((∀ i, i < L → (((c0 :: rest).map
          (fun c => c.entries.getD i none)).filterMap id).length ≤ 1) ∧
      ∃ r, merge (c0 :: rest) = .ok r ∧ r.tags = c0.tags ∧
        r.entries.length = L ∧
        ∀ i, i < L →
          ((r.entries.getD i none = none ∧
              ∀ c ∈ c0 :: rest, c.entries.getD i none = none) ∨
           (∃ c ∈ c0 :: rest, ∃ d, c.entries.getD i none = some d ∧
              r.entries.getD i none = some d))) := by
  have hm : minLen ((c0 :: rest).map (fun c => c.entries)) = L := by
    apply minLen_const _ _ (by simp)
    intro l hl
    rcases List.mem_map.mp hl with ⟨c, hc, rfl⟩
    exact hlen c hc
  have hrow : ∀ i : Nat,
      ((c0 :: rest).map (fun c => c.entries)).map (fun l => l.getD i none) =
      (c0 :: rest).map (fun c => c.entries.getD i none) := by
    intro i
    rw [List.map_map]
    rfl
  by_cases hov : ∃ i, i < L ∧ 1 < (((c0 :: rest).map
      (fun c => c.entries.getD i none)).filterMap id).length
  · left
    refine ⟨hov, ?_⟩
    rcases hov with ⟨i, hi, hgt⟩
    have hmem : ((c0 :: rest).map (fun c => c.entries.getD i none)) ∈
        zipEntries ((c0 :: rest).map (fun c => c.entries)) := by
      rw [mem_zipEntries]
      exact ⟨i, by rw [hm]; exact hi, (hrow i).symm⟩
    have herr : mapExc check_and_pick
        (zipEntries ((c0 :: rest).map (fun c => c.entries))) =
        .error .overlap := by
      apply mapExc_error_of_mem
      · intro row hrw
        by_cases h1 : 1 < (row.filterMap id).length
        · exact Or.inl (check_and_pick_overflow row h1)
        · exact Or.inr ⟨_, check_and_pick_ok row (by omega)⟩
      · exact ⟨_, hmem, check_and_pick_overflow _ hgt⟩
    simp only [merge, herr]
  · right
    have hno : ∀ i, i < L → (((c0 :: rest).map
        (fun c => c.entries.getD i none)).filterMap id).length ≤ 1 := by
      intro i hi
      by_contra hgt
      exact hov ⟨i, hi, by omega⟩
    refine ⟨hno, ?_⟩
    have hok : mapExc check_and_pick
        (zipEntries ((c0 :: rest).map (fun c => c.entries))) =
        .ok ((zipEntries ((c0 :: rest).map (fun c => c.entries))).map
          (fun row => (row.filterMap id).head?)) := by
      apply mapExc_ok
      intro row hrw
      rcases mem_zipEntries.mp hrw with ⟨i, hi, rfl⟩
      apply check_and_pick_ok
      rw [hrow i]
      exact hno i (by rw [hm] at hi; exact hi)
    refine ⟨⟨(zipEntries ((c0 :: rest).map (fun c => c.entries))).map
        (fun row => (row.filterMap id).head?), c0.tags⟩,
      by simp only [merge, hok], rfl, ?_, ?_⟩
    · simp only [List.length_map]
      rw [zipEntries_length, hm]
    · intro i hi
      have hgd : ((zipEntries ((c0 :: rest).map (fun c => c.entries))).map
          (fun row => (row.filterMap id).head?)).getD i none =
          (((c0 :: rest).map
            (fun c => c.entries.getD i none)).filterMap id).head? := by
        rw [List.getD_eq_getElem?_getD, List.getElem?_map,
          zipEntries_getElem? _ i (by rw [hm]; exact hi)]
        simp only [Option.map_some', Option.getD_some]
        rw [hrow i]
      cases hh : ((c0 :: rest).map
          (fun c => c.entries.getD i none)).filterMap id with
      | nil =>
        left
        constructor
        · rw [hgd, hh]
          rfl
        · intro c hc
          have hall := List.filterMap_eq_nil_iff.mp hh
          exact hall (c.entries.getD i none) (List.mem_map_of_mem _ hc)
      | cons d ds =>
        right
        have hd : d ∈ ((c0 :: rest).map
            (fun c => c.entries.getD i none)).filterMap id := by
          rw [hh]
          simp
        rcases List.mem_filterMap.mp hd with ⟨x, hx, hxd⟩
        rcases List.mem_map.mp hx with ⟨c, hc, rfl⟩
        refine ⟨c, hc, d, hxd, ?_⟩
        rw [hgd, hh]
        rfl

/-- Witness for C3: merging two overlapping one-slot collections raises
the overlap error, via the dichotomy at a concrete input. -/
theorem merge_overlap_dichotomy_witness :
    merge [(⟨[some ⟨1, []⟩], []⟩ : DatumCollection Nat),
           ⟨[some ⟨2, []⟩], []⟩] = .error .overlap := by
  rcases merge_overlap_dichotomy (⟨[some ⟨1, []⟩], []⟩ : DatumCollection Nat)
      [⟨[some ⟨2, []⟩], []⟩] 1 (by decide) with h | h
  · exact h.2
  · exact absurd (h.1 0 (by decide)) (by decide)

/-! Claim C4. -/

/-- C4: when the input collections' tag mappings are not all equal, merge
still logs only the non-fatal warning: the warning flag is set, the merge
result is exactly the one obtained with all tags replaced by the first
collection's tags (so the entry merge is unaffected and no new error
arises), the retagged inputs would not warn, and a successful merge
carries the first collection's tags. -/
theorem merge_tag_mismatch {α : Type} (c0 : DatumCollection α)
    (rest : List (DatumCollection α))
    (h : ∃ c ∈ c0 :: rest, sortTags c.tags ≠ sortTags c0.tags) :
    mergeWarns (c0 :: rest) = true ∧
    merge (c0 :: rest) = merge ((c0 :: rest).map
      (fun c => (⟨c.entries, c0.tags⟩ : DatumCollection α))) ∧
    mergeWarns ((c0 :: rest).map
      (fun c => (⟨c.entries, c0.tags⟩ : DatumCollection α))) = false ∧
    (merge (c0 :: rest) = .error .overlap ∨
      ∃ r, merge (c0 :: rest) = .ok r ∧ r.tags = c0.tags) := by
  refine ⟨?_, ?_, ?_, ?_⟩
  · have h1 : ((c0 :: rest).map
        (fun c => sortTags c.tags)).dedup.length ≠ 1 := by
      intro hlen1
      rcases List.length_eq_one.mp hlen1 with ⟨x, hx⟩
      rcases h with ⟨c, hc, hne⟩
      have hcx : sortTags c.tags = x := by
        have hmem : sortTags c.tags ∈
            ((c0 :: rest).map (fun c => sortTags c.tags)).dedup :=
          List.mem_dedup.mpr (List.mem_map_of_mem _ hc)
        rw [hx] at hmem
        simpa using hmem
      have hc0x : sortTags c0.tags = x := by
        have hmem : sortTags c0.tags ∈
            ((c0 :: rest).map (fun c => sortTags c.tags)).dedup :=
          List.mem_dedup.mpr (List.mem_map_of_mem _ (by simp))
        rw [hx] at hmem
        simpa using hmem
      exact hne (hcx.trans hc0x.symm)
    simp only [mergeWarns, bne_iff_ne, ne_eq]
    exact h1
  · have he : ((c0 :: rest).map
        (fun c => (⟨c.entries, c0.tags⟩ : DatumCollection α))).map
        (fun c => c.entries) = (c0 :: rest).map (fun c => c.entries) := by
      rw [List.map_map]
      rfl
    exact merge_eq_of_zip c0 _ rest _ (congrArg zipEntries he.symm) rfl
  · have hconst : ∀ y ∈ ((c0 :: rest).map
        (fun c => (⟨c.entries, c0.tags⟩ : DatumCollection α))).map
        (fun c => sortTags c.tags), y = sortTags c0.tags := by
      intro y hy
      rcases List.mem_map.mp hy with ⟨c, hc, rfl⟩
      rcases List.mem_map.mp hc with ⟨c1, hc1, rfl⟩
      rfl
    have hlen1 : (((c0 :: rest).map
        (fun c => (⟨c.entries, c0.tags⟩ : DatumCollection α))).map
        (fun c => sortTags c.tags)).dedup.length = 1 :=
      (dedup_length_eq_one _ (by simp)).mpr
        (fun a ha b hb => (hconst a ha).trans (hconst b hb).symm)
    simp only [mergeWarns, hlen1, bne_self_eq_false]
  · cases hm : mapExc check_and_pick
        (zipEntries ((c0 :: rest).map (fun c => c.entries))) with
    | error e =>
      left
      rcases mapExc_error_mem _ _ _ hm with ⟨row, _, hrow⟩
      have he := check_and_pick_error_eq _ _ hrow
      subst he
      simp only [merge, hm]
    | ok merged =>
      right
      exact ⟨⟨merged, c0.tags⟩, by simp only [merge, hm], rfl⟩

/-- Witness for C4 at two one-slot collections with different tags. -/
theorem merge_tag_mismatch_witness :
    mergeWarns [(⟨[some ⟨1, []⟩], [("a", "1")]⟩ : DatumCollection Nat),
      ⟨[none], [("b", "2")]⟩] = true ∧
    merge [(⟨[some ⟨1, []⟩], [("a", "1")]⟩ : DatumCollection Nat),
        ⟨[none], [("b", "2")]⟩] =
      merge ([(⟨[some ⟨1, []⟩], [("a", "1")]⟩ : DatumCollection Nat),
        ⟨[none], [("b", "2")]⟩].map
          (fun c => (⟨c.entries, [("a", "1")]⟩ : DatumCollection Nat))) ∧
    mergeWarns ([(⟨[some ⟨1, []⟩], [("a", "1")]⟩ : DatumCollection Nat),
        ⟨[none], [("b", "2")]⟩].map
          (fun c => (⟨c.entries, [("a", "1")]⟩ : DatumCollection Nat))) =
      false ∧
    (merge [(⟨[some ⟨1, []⟩], [("a", "1")]⟩ : DatumCollection Nat),
        ⟨[none], [("b", "2")]⟩] = .error .overlap ∨
      ∃ r, merge [(⟨[some ⟨1, []⟩], [("a", "1")]⟩ : DatumCollection Nat),
        ⟨[none], [("b", "2")]⟩] = .ok r ∧ r.tags = [("a", "1")]) :=
  merge_tag_mismatch ⟨[some ⟨1, []⟩], [("a", "1")]⟩
    [⟨[none], [("b", "2")]⟩] (by decide)

/-! Claim C9. -/

/-- C9: the lifted transform cmap f keeps the entry count and the
collection tags, applies f to every non-empty slot in its original
position, and keeps every empty slot empty. -/
theorem cmap_preserves {α : Type} (f : Datum α → Datum α)
    (c : DatumCollection α) :
    (cmap f c).entries.length = c.entries.length ∧
    (cmap f c).tags = c.tags ∧
    ∀ i : Nat, (cmap f c).entries.getD i none =
      (c.entries.getD i none).map f := by
  refine ⟨by simp [cmap], rfl, fun i => ?_⟩
  simp only [cmap, List.getD_eq_getElem?_getD, List.getElem?_map]
  cases c.entries[i]? with
  | none => rfl
  | some s => cases s <;> rfl

/-! Claim C8. -/

/-- C8: running a two-step pipeline with distinct step names s1, s2 and
trace enabled stores, under s2, the final output of the two-step run and,
under s1, the output of running the one-step pipeline alone; each trace
entry is the post-step container under that step's name. -/
theorem pipeline_trace {α : Type} (x : Container α) (s1 s2 : String)
    (f1 f2 : α → α) (h : s1 ≠ s2) :
    (pipeRunTrace [(s1, f1), (s2, f2)] x).2.lookup s2 =
        some (pipeRun [(s1, f1), (s2, f2)] x) ∧
    (pipeRunTrace [(s1, f1), (s2, f2)] x).2.lookup s1 =
        some (pipeRun [(s1, f1)] x) ∧
    (pipeRunTrace [(s1, f1), (s2, f2)] x).1 =
        pipeRun [(s1, f1), (s2, f2)] x := by
  have e1 : (s2 == s1) = false := beq_eq_false_iff_ne.mpr (Ne.symm h)
  have e2 : (s1 == s1) = true := beq_self_eq_true s1
  have e3 : (s2 == s2) = true := beq_self_eq_true s2
  simp [pipeRunTrace, pipeRun, dinsert, List.lookup, h, e1, e2, e3]

/-- Witness for C8 at a concrete container, step names and transforms. -/
theorem pipeline_trace_witness :
    (pipeRunTrace [("a", fun n => n + 1), ("b", fun n => n * 2)]
        (Container.plain (0 : Nat))).2.lookup "b" =
      some (pipeRun [("a", fun n => n + 1), ("b", fun n => n * 2)]
        (Container.plain 0)) ∧
    (pipeRunTrace [("a", fun n => n + 1), ("b", fun n => n * 2)]
        (Container.plain 0)).2.lookup "a" =
      some (pipeRun [("a", fun n => n + 1)] (Container.plain 0)) ∧
    (pipeRunTrace [("a", fun n => n + 1), ("b", fun n => n * 2)]
        (Container.plain 0)).1 =
      pipeRun [("a", fun n => n + 1), ("b", fun n => n * 2)]
        (Container.plain 0) :=
  pipeline_trace (Container.plain 0) "a" "b" (fun n => n + 1)
    (fun n => n * 2) (by decide)

/-! Claim C5. -/

theorem valid_entries_filter_collection {α : Type} (c : DatumCollection α)
    (p : Datum α → Bool) :
    (filter_collection c p).valid_entries = c.valid_entries.filter p := by
  simp [filter_collection, DatumCollection.valid_entries]

/-- C5 counterexample: an entry whose tags lack the key is not excluded
from the grouping: group_by_tag places it in the group keyed by the
observed value None. -/
theorem group_by_tag_counterexample :
    tagsGet (Datum.tags (⟨0, []⟩ : Datum Nat)) "k" = none ∧
    group_by_tag (⟨[some ⟨0, []⟩], []⟩ : DatumCollection Nat) "k" =
      [(none, ⟨[some ⟨0, []⟩], []⟩)] ∧
    (⟨0, []⟩ : Datum Nat) ∈
      DatumCollection.valid_entries
        (⟨[some ⟨0, []⟩], []⟩ : DatumCollection Nat) := by
  decide

/-- C5 amended: group_by_tag partitions the non-empty entries by exact
equality of the observed value tags.get(key), a missing key being observed
as None: every valid entry appears in the group keyed by its own observed
value — entries lacking the key are grouped under None rather than
excluded — and that group holds exactly the valid entries sharing the
observation, with the collection tags preserved. -/
theorem group_by_tag_partitions {α : Type} (c : DatumCollection α)
    (k : String) (d : Datum α) (hd : d ∈ c.valid_entries) :
    ∃ g, (tagsGet d.tags k, g) ∈ group_by_tag c k ∧
      g.valid_entries = c.valid_entries.filter
        (fun m => tagsGet m.tags k == tagsGet d.tags k) ∧
      d ∈ g.valid_entries ∧ g.tags = c.tags := by
  refine ⟨filter_collection c
      (fun m => tagsGet m.tags k == tagsGet d.tags k), ?_, ?_, ?_, rfl⟩
  · rw [group_by_tag]
    apply List.mem_map.mpr
    refine ⟨tagsGet d.tags k, ?_, rfl⟩
    apply List.mem_dedup.mpr
    rw [get_tags]
    apply List.mem_map.mpr
    exact ⟨d, hd, Option.or_none⟩
  · exact valid_entries_filter_collection c _
  · rw [valid_entries_filter_collection]
    exact List.mem_filter.mpr ⟨hd, by simp⟩

/-- Witness for C5 amended at a concrete collection, key and entry. -/
theorem group_by_tag_partitions_witness :
    ∃ g, (tagsGet (Datum.tags (⟨5, [("k", "v")]⟩ : Datum Nat)) "k", g) ∈
        group_by_tag
          (⟨[some ⟨5, [("k", "v")]⟩, none], []⟩ : DatumCollection Nat) "k" ∧
      DatumCollection.valid_entries g =
        (DatumCollection.valid_entries
          (⟨[some ⟨5, [("k", "v")]⟩, none], []⟩ : DatumCollection Nat)).filter
          (fun m => tagsGet m.tags "k" ==
            tagsGet (Datum.tags (⟨5, [("k", "v")]⟩ : Datum Nat)) "k") ∧
      (⟨5, [("k", "v")]⟩ : Datum Nat) ∈ DatumCollection.valid_entries g ∧
      g.tags =
        DatumCollection.tags
          (⟨[some ⟨5, [("k", "v")]⟩, none], []⟩ : DatumCollection Nat) :=
  group_by_tag_partitions ⟨[some ⟨5, [("k", "v")]⟩, none], []⟩ "k"
    ⟨5, [("k", "v")]⟩ (by decide)

/-! Claim C6. -/

theorem mapOpt_some_eq {β γ : Type} (f : β → Option γ) (g : β → γ)
    (l : List β) (h : ∀ x ∈ l, f x = some (g x)) :
    mapOpt f l = some (l.map g) := by
  induction l with
  | nil => rfl
  | cons x xs ih =>
    have hx := h x (by simp)
    have hxs := ih (fun y hy => h y (by simp [hy]))
    simp [mapOpt, hx, hxs]

theorem filterMap_map_values {α : Type} (k : String)
    (row : List (Option (Datum α))) (h : ∀ s ∈ row, s.isSome = true) :
    (row.filterMap id).map (fun d => tagsGet d.tags k) =
      row.map (fun s => slotTag s k) := by
  induction row with
  | nil => rfl
  | cons s row ih =>
    cases s with
    | none => exact absurd (h none (by simp)) (by simp)
    | some d =>
      have ih2 := ih (fun t ht => h t (by simp [ht]))
      simp [List.filterMap_cons, slotTag, ih2]

theorem check_tags_full {α : Type} (k : String) (row : List (Option (Datum α)))
    (h2 : 2 ≤ row.length) (hfull : ∀ s ∈ row, s.isSome = true) :
    check_tags row k =
      some ((row.map (fun s => slotTag s k)).dedup.length == 1) := by
  have hanyf : row.any (fun s => s.isNone) = false := by
    rw [List.any_eq_false]
    intro s hs
    have hsome := hfull s hs
    cases s with
    | none => simp at hsome
    | some d => simp
  simp only [check_tags]
  rw [if_neg (by omega), if_neg (by simp [hanyf]),
    filterMap_map_values k row hfull]

/-- C6 counterexample: two equal-length collections where the single
position holds a non-empty entry in only one of them; the claim predicts
True (no constraint), but compare_tags dereferences the empty slot and
raises AttributeError instead of returning a result. -/
theorem compare_tags_counterexample :
    (∀ c ∈ [(⟨[some ⟨1, []⟩], []⟩ : DatumCollection Nat), ⟨[none], []⟩],
      c.entries.length = 1) ∧
    ((([(⟨[some ⟨1, []⟩], []⟩ : DatumCollection Nat),
        ⟨[none], []⟩]).map (fun c => c.entries.getD 0 none)).filterMap
          id).length ≤ 1 ∧
    compare_tags [(⟨[some ⟨1, []⟩], []⟩ : DatumCollection Nat),
      ⟨[none], []⟩] ["k"] = none := by
  decide

/-- C6 amended: an empty slot makes compare_tags raise AttributeError, so
the agreement reading holds on fully-occupied inputs: for two or more
equal-length collections with every slot occupied, compare_tags returns a
result, and returns True exactly when, for every listed key and every
position, all the aligned entries agree on the observed value of that key
(a missing key observing None). -/
theorem compare_tags_agree {α : Type} (c0 c1 : DatumCollection α)
    (rest : List (DatumCollection α)) (keys : List String) (L : Nat)
    (hlen : ∀ c ∈ c0 :: c1 :: rest, c.entries.length = L)
    (hfull : ∀ c ∈ c0 :: c1 :: rest, ∀ s ∈ c.entries, s.isSome = true) :
    (∃ b, compare_tags (c0 :: c1 :: rest) keys = some b) ∧
    (compare_tags (c0 :: c1 :: rest) keys = some true ↔
      ∀ k ∈ keys, ∀ i, i < L → ∀ c ∈ c0 :: c1 :: rest,
        ∀ c2 ∈ c0 :: c1 :: rest, tagAt c i k = tagAt c2 i k) := by
  have hm : minLen ((c0 :: c1 :: rest).map (fun c => c.entries)) = L := by
    apply minLen_const _ _ (by simp)
    intro l hl
    rcases List.mem_map.mp hl with ⟨c, hc, rfl⟩
    exact hlen c hc
  have hrow : ∀ i : Nat,
      ((c0 :: c1 :: rest).map (fun c => c.entries)).map
        (fun l => l.getD i none) =
      (c0 :: c1 :: rest).map (fun c => c.entries.getD i none) := by
    intro i
    rw [List.map_map]
    rfl
  have hrowfacts : ∀ row ∈ zipEntries
      ((c0 :: c1 :: rest).map (fun c => c.entries)),
      row.length = rest.length + 2 ∧ ∀ s ∈ row, s.isSome = true := by
    intro row hr
    rcases mem_zipEntries.mp hr with ⟨i, hi, rfl⟩
    rw [hm] at hi
    constructor
    · simp
    · intro s hs
      rcases List.mem_map.mp hs with ⟨l, hl, rfl⟩
      rcases List.mem_map.mp hl with ⟨c, hc, rfl⟩
      have hlc : c.entries.length = L := hlen c hc
      have hi2 : i < c.entries.length := by omega
      rw [List.getD_eq_getElem?_getD, List.getElem?_eq_getElem hi2]
      simp only [Option.getD_some]
      exact hfull c hc _ (c.entries.getElem_mem hi2)
  have hck : ∀ k : String, ∀ row ∈ zipEntries
      ((c0 :: c1 :: rest).map (fun c => c.entries)),
      check_tags row k =
        some ((row.map (fun s => slotTag s k)).dedup.length == 1) := by
    intro k row hr
    have hf := hrowfacts row hr
    exact check_tags_full k row (by omega) hf.2
  have hinner : ∀ k : String, mapOpt (fun row => check_tags row k)
      (zipEntries ((c0 :: c1 :: rest).map (fun c => c.entries))) =
      some ((zipEntries ((c0 :: c1 :: rest).map (fun c => c.entries))).map
        (fun row => ((row.map (fun s => slotTag s k)).dedup.length == 1))) :=
    fun k => mapOpt_some_eq _ _ _ (hck k)
  have houter : mapOpt (fun k =>
      match mapOpt (fun row => check_tags row k)
          (zipEntries ((c0 :: c1 :: rest).map (fun c => c.entries))) with
      | none => none
      | some checks => some (checks.all id)) keys =
      some (keys.map (fun k =>
        ((zipEntries ((c0 :: c1 :: rest).map (fun c => c.entries))).map
          (fun row =>
            ((row.map (fun s => slotTag s k)).dedup.length == 1))).all
              id)) := by
    apply mapOpt_some_eq
    intro k hk
    rw [hinner k]
  have hcomp : compare_tags (c0 :: c1 :: rest) keys =
      some ((keys.map (fun k =>
        ((zipEntries ((c0 :: c1 :: rest).map (fun c => c.entries))).map
          (fun row =>
            ((row.map (fun s => slotTag s k)).dedup.length == 1))).all
              id)).all id) := by
    simp only [compare_tags]
    rw [houter]
  refine ⟨⟨_, hcomp⟩, ?_⟩
  rw [hcomp, Option.some.injEq]
  constructor
  · intro hall k hk i hi c hc c2 hc2
    rw [List.all_eq_true] at hall
    have h1 := hall _ (List.mem_map_of_mem _ hk)
    simp only [id] at h1
    rw [List.all_eq_true] at h1
    have hri : ((c0 :: c1 :: rest).map (fun c => c.entries.getD i none)) ∈
        zipEntries ((c0 :: c1 :: rest).map (fun c => c.entries)) := by
      rw [mem_zipEntries]
      exact ⟨i, by rw [hm]; exact hi, (hrow i).symm⟩
    have h2 := h1 _ (List.mem_map_of_mem _ hri)
    simp only [id] at h2
    have h3 : (((c0 :: c1 :: rest).map
        (fun c => c.entries.getD i none)).map
          (fun s => slotTag s k)).dedup.length = 1 := by
      simpa using h2
    have h4 := (dedup_length_eq_one _ (by simp)).mp h3
    have hcmem : tagAt c i k ∈ ((c0 :: c1 :: rest).map
        (fun c => c.entries.getD i none)).map (fun s => slotTag s k) := by
      rw [List.map_map]
      exact List.mem_map_of_mem _ hc
    have hc2mem : tagAt c2 i k ∈ ((c0 :: c1 :: rest).map
        (fun c => c.entries.getD i none)).map (fun s => slotTag s k) := by
      rw [List.map_map]
      exact List.mem_map_of_mem _ hc2
    exact h4 _ hcmem _ hc2mem
  · intro hagree
    rw [List.all_eq_true]
    intro x hx
    rcases List.mem_map.mp hx with ⟨k, hk, rfl⟩
    simp only [id]
    rw [List.all_eq_true]
    intro y hy
    rcases List.mem_map.mp hy with ⟨row, hr, rfl⟩
    rcases mem_zipEntries.mp hr with ⟨i, hi, rfl⟩
    rw [hm] at hi
    simp only [id, beq_iff_eq]
    rw [hrow i]
    apply (dedup_length_eq_one _ (by simp)).mpr
    intro a ha b hb
    rcases List.mem_map.mp ha with ⟨s, hs, rfl⟩
    rcases List.mem_map.mp hs with ⟨c, hc, rfl⟩
    rcases List.mem_map.mp hb with ⟨s2, hs2, rfl⟩
    rcases List.mem_map.mp hs2 with ⟨c2, hc2, rfl⟩
    exact hagree k hk i hi c hc c2 hc2

/-- Witness for C6 amended at two concrete fully-occupied collections. -/
theorem compare_tags_agree_witness :
    (∃ b, compare_tags [(⟨[some ⟨1, [("k", "x")]⟩], []⟩ : DatumCollection Nat),
      ⟨[some ⟨2, [("k", "x")]⟩], []⟩] ["k"] = some b) ∧
    (compare_tags [(⟨[some ⟨1, [("k", "x")]⟩], []⟩ : DatumCollection Nat),
        ⟨[some ⟨2, [("k", "x")]⟩], []⟩] ["k"] = some true ↔
      ∀ k ∈ ["k"], ∀ i, i < 1 →
        ∀ c ∈ [(⟨[some ⟨1, [("k", "x")]⟩], []⟩ : DatumCollection Nat),
          ⟨[some ⟨2, [("k", "x")]⟩], []⟩],
        ∀ c2 ∈ [(⟨[some ⟨1, [("k", "x")]⟩], []⟩ : DatumCollection Nat),
          ⟨[some ⟨2, [("k", "x")]⟩], []⟩],
          tagAt c i k = tagAt c2 i k) :=
  compare_tags_agree ⟨[some ⟨1, [("k", "x")]⟩], []⟩
    ⟨[some ⟨2, [("k", "x")]⟩], []⟩ [] ["k"] 1 (by decide) (by decide)

/-! Claim C7. -/

instance {α : Type} (k : String) (rev : Bool) :
    IsTotal (Option (Datum α)) (sortRel k rev) := by
  cases rev
  · exact ⟨fun a b => le_total (keyD k a) (keyD k b)⟩
  · exact ⟨fun a b => le_total (keyD k b) (keyD k a)⟩

instance {α : Type} (k : String) (rev : Bool) :
    IsTrans (Option (Datum α)) (sortRel k rev) := by
  cases rev
  · exact ⟨fun a b c hab hbc => le_trans hab hbc⟩
  · exact ⟨fun a b c hab hbc => le_trans hbc hab⟩

theorem empty_string_le (s : String) : "" ≤ s := by
  rw [String.le_iff_toList_le]
  exact List.nil_le

theorem keyD_ne_of_not_sortRel {α : Type} (k : String) (rev : Bool)
    (a b : Option (Datum α)) (h : ¬ sortRel k rev a b) :
    keyD k a ≠ keyD k b := by
  cases rev
  · intro heq; exact h (le_of_eq heq)
  · intro heq; exact h (le_of_eq heq.symm)

theorem filter_orderedInsert_stable {γ : Type} (r : γ → γ → Prop)
    [DecidableRel r] (key : γ → String)
    (hr : ∀ a b, ¬ r a b → key a ≠ key b) (x : γ) (l : List γ) (v : String) :
    (l.orderedInsert r x).filter (fun s => key s == v) =
      if key x == v then x :: l.filter (fun s => key s == v)
      else l.filter (fun s => key s == v) := by
  induction l with
  | nil =>
    rw [List.orderedInsert_nil, List.filter_cons]
  | cons y ys ih =>
    rw [List.orderedInsert]
    by_cases hxy : r x y
    · rw [if_pos hxy, List.filter_cons]
    · rw [if_neg hxy]
      have hne := hr x y hxy
      rw [List.filter_cons, ih, List.filter_cons]
      by_cases hx : key x = v
      · have hyv : (key y == v) = false :=
          beq_eq_false_iff_ne.mpr (fun hyv => hne (by rw [hx, hyv]))
        simp [hx, hyv]
      · have hxv : (key x == v) = false := beq_eq_false_iff_ne.mpr hx
        simp [hxv]

theorem filter_insertionSort_stable {γ : Type} (r : γ → γ → Prop)
    [DecidableRel r] (key : γ → String)
    (hr : ∀ a b, ¬ r a b → key a ≠ key b) (l : List γ) (v : String) :
    (l.insertionSort r).filter (fun s => key s == v) =
      l.filter (fun s => key s == v) := by
  induction l with
  | nil => rfl
  | cons x xs ih =>
    rw [List.insertionSort, filter_orderedInsert_stable r key hr, ih,
      List.filter_cons]

/-- C7 counterexample: a collection holding an empty slot and an occupied
entry whose tags lack the key; the claim predicts a same-length stable
sort, but Python sorted compares the entry's None key against the
empty-slot sentinel and raises TypeError, for either sort direction. -/
theorem sort_by_counterexample :
    sort_by (⟨[some ⟨1, []⟩, none], []⟩ : DatumCollection Nat) "k" false =
      none ∧
    sort_by (⟨[some ⟨1, []⟩, none], []⟩ : DatumCollection Nat) "k" true =
      none := by
  decide

/-- C7 amended: when every slot's sort key is defined — every occupied
entry carries the key (string-valued in this model), empty slots taking
the "" sentinel — sort_by returns a collection of the same length and
tags whose entries are a stable sort of the slots by the key (descending
when reverse): a permutation, sorted under the chosen order, with
equal-keyed slots kept in their original relative order, and the
empty-slot sentinel ordering at or below every occupied key; when an
occupied entry lacks the key and the collection has two or more slots,
the comparison raises TypeError instead. -/
theorem sort_by_sorts {α : Type} (c : DatumCollection α) (k : String)
    (rev : Bool)
    (hkeys : ∀ s ∈ c.entries, (slot_key k s).isSome = true) :
    ∃ c1, sort_by c k rev = some c1 ∧
      c1.tags = c.tags ∧
      c1.entries.length = c.entries.length ∧
      c1.entries.Perm c.entries ∧
      List.Sorted (sortRel k rev) c1.entries ∧
      (∀ v : String, c1.entries.filter (fun s => keyD k s == v) =
        c.entries.filter (fun s => keyD k s == v)) ∧
      ∀ s ∈ c.entries, keyD k (none : Option (Datum α)) ≤ keyD k s := by
  have hcond : ¬ (2 ≤ c.entries.length ∧
      c.entries.any (fun s => (slot_key k s).isNone) = true) := by
    rintro ⟨h2, hany⟩
    rcases List.any_eq_true.mp hany with ⟨s, hs, hnone⟩
    have hsome := hkeys s hs
    cases hsk : slot_key k s with
    | none => rw [hsk] at hsome; simp at hsome
    | some v => rw [hsk] at hnone; simp at hnone
  have hsort : sort_by c k rev =
      some ⟨c.entries.insertionSort (sortRel k rev), c.tags⟩ := by
    rw [sort_by, if_neg hcond]
  refine ⟨⟨c.entries.insertionSort (sortRel k rev), c.tags⟩, hsort, rfl,
    ?_, ?_, ?_, ?_, ?_⟩
  · exact List.length_insertionSort _ _
  · exact List.perm_insertionSort _ _
  · exact List.sorted_insertionSort _ _
  · intro v
    exact filter_insertionSort_stable (sortRel k rev) (keyD k)
      (fun a b h => keyD_ne_of_not_sortRel k rev a b h) c.entries v
  · intro s hs
    exact empty_string_le (keyD k s)

/-- Witness for C7 amended at a concrete three-slot collection whose
occupied entries both carry the key. -/
theorem sort_by_sorts_witness :
    ∃ c1, sort_by (⟨[some ⟨1, [("k", "b")]⟩, none,
        some ⟨2, [("k", "a")]⟩], [("t", "s")]⟩ : DatumCollection Nat)
        "k" false = some c1 ∧
      c1.tags = [("t", "s")] ∧
      c1.entries.length = 3 ∧
      c1.entries.Perm [some ⟨1, [("k", "b")]⟩, none,
        some ⟨2, [("k", "a")]⟩] ∧
      List.Sorted (sortRel "k" false) c1.entries ∧
      (∀ v : String, c1.entries.filter (fun s => keyD "k" s == v) =
        ([some ⟨1, [("k", "b")]⟩, none,
          some ⟨2, [("k", "a")]⟩] : List (Option (Datum Nat))).filter
          (fun s => keyD "k" s == v)) ∧
      ∀ s ∈ ([some ⟨1, [("k", "b")]⟩, none,
          some ⟨2, [("k", "a")]⟩] : List (Option (Datum Nat))),
        keyD "k" (none : Option (Datum Nat)) ≤ keyD "k" s :=
  sort_by_sorts ⟨[some ⟨1, [("k", "b")]⟩, none, some ⟨2, [("k", "a")]⟩],
    [("t", "s")]⟩ "k" false (by decide)

end Datumlib
